import Mathlib

/-!
Verification of the name-normalization pipeline of
web-data-integration (src/name_utils.py).

Strings are modelled as `List Char`.  Python library primitives
(`str.replace`, `str.split`, `str.strip`, `str.lower`, `re.sub` with the
concrete patterns appearing in the source, `bytes.decode("utf-8")`,
`unicodedata.normalize("NFD", -)` and `unicodedata.category`) are embedded
as executable Lean functions; the Unicode character data (decomposition,
category, case mapping) is restricted to the code points exercised by this
development, identity elsewhere.
-/

set_option autoImplicit false

namespace NameUtils

/-- Python whitespace predicate used by `str.split()` / `str.strip()`
(`str.isspace` per character). -/
def isSpaceCh (c : Char) : Bool :=
  decide (c.toNat = 32 ∨ (9 ≤ c.toNat ∧ c.toNat ≤ 13) ∨ (28 ≤ c.toNat ∧ c.toNat ≤ 31) ∨
    c.toNat = 133 ∨ c.toNat = 160 ∨ c.toNat = 5760 ∨
    (8192 ≤ c.toNat ∧ c.toNat ≤ 8202) ∨ c.toNat = 8232 ∨ c.toNat = 8233 ∨
    c.toNat = 8239 ∨ c.toNat = 8287 ∨ c.toNat = 12288)

/-- Unicode general category test "Mn" (nonspacing mark), restricted to the
Combining Diacritical Marks block U+0300..U+036F — the marks produced by the
decompositions modelled in `nfd`. -/
def isMn (c : Char) : Bool :=
  decide (768 ≤ c.toNat ∧ c.toNat ≤ 879)

/-- Canonical decomposition (NFD) of one character, modelling
`unicodedata.normalize("NFD", -)` character-wise.  Code points below U+00C0
are NFD-stable; of the accented Latin letters the development exercises
exactly É, é, Í, í, which decompose to the base letter plus U+0301
(combining acute accent); all other characters are kept as themselves. -/
def nfd (c : Char) : List Char :=
  if c.toNat < 192 then [c]
  else if c = 'É' then ['E', '́']
  else if c = 'é' then ['e', '́']
  else if c = 'Í' then ['I', '́']
  else if c = 'í' then ['i', '́']
  else [c]

/-- Python `str.lower`, character-wise: ASCII A–Z shift by 32, the modelled
accented uppercase letters map to their lowercase forms, everything else is
fixed. -/
def pyLower (c : Char) : Char :=
  if 65 ≤ c.toNat ∧ c.toNat ≤ 90 then Char.ofNat (c.toNat + 32)
  else if c = 'É' then 'é'
  else if c = 'Í' then 'í'
  else c

/-- The regex character class `[0-9a-fA-F]`. -/
def isHexDigit (c : Char) : Bool :=
  decide ((48 ≤ c.toNat ∧ c.toNat ≤ 57) ∨ (97 ≤ c.toNat ∧ c.toNat ≤ 102) ∨
    (65 ≤ c.toNat ∧ c.toNat ≤ 70))

/-- Numeric value of a hex digit (`int(-, 16)` on one digit). -/
def hexVal (c : Char) : Nat :=
  if 48 ≤ c.toNat ∧ c.toNat ≤ 57 then c.toNat - 48
  else if 97 ≤ c.toNat then c.toNat - 87
  else c.toNat - 55

/-- Strict UTF-8 decoding of a byte list, modelling Python
`bytes(-).decode("utf-8")`: `none` is a `UnicodeDecodeError`.  Rejects
overlong encodings, surrogates and stray continuation bytes.  Four-byte
leads (0xF0..) are reported as failures, which is faithful for the inputs
this development feeds it (at most three bytes, so a four-byte sequence is
always truncated and Python raises). -/
def utf8DecodeBytes : List Nat → Option (List Char)
  | [] => some []
  | b :: bs =>
    if b < 128 then
      (utf8DecodeBytes bs).map (fun out => Char.ofNat b :: out)
    else if 194 ≤ b ∧ b ≤ 223 then
      match bs with
      | [] => none
      | b2 :: bs2 =>
        if 128 ≤ b2 ∧ b2 ≤ 191 then
          (utf8DecodeBytes bs2).map (fun out => Char.ofNat ((b - 192) * 64 + (b2 - 128)) :: out)
        else none
    else if 224 ≤ b ∧ b ≤ 239 then
      match bs with
      | b2 :: b3 :: bs3 =>
        if (128 ≤ b2 ∧ b2 ≤ 191) ∧ (128 ≤ b3 ∧ b3 ≤ 191) ∧
           (b = 224 → 160 ≤ b2) ∧ (b = 237 → b2 ≤ 159) then
          (utf8DecodeBytes bs3).map
            (fun out => Char.ofNat ((b - 224) * 4096 + (b2 - 128) * 64 + (b3 - 128)) :: out)
        else none
      | _ => none
    else none

/-- First `re.sub` pass of `_decode_literal_hex_sequences` (line 31):
pattern three consecutive literal `\xHH` groups, replaced by the UTF-8
decoding of the three bytes, reverting to the matched text on decode
failure.  Scanning is left-to-right and non-overlapping; on a failed match
the scan advances one character. -/
def decodeTriples : List Char → List Char
  | c1 :: c2 :: c3 :: c4 :: c5 :: c6 :: c7 :: c8 :: c9 :: c10 :: c11 :: c12 :: cs =>
    if c1 = '\\' ∧ c2 = 'x' ∧ isHexDigit c3 ∧ isHexDigit c4 ∧
       c5 = '\\' ∧ c6 = 'x' ∧ isHexDigit c7 ∧ isHexDigit c8 ∧
       c9 = '\\' ∧ c10 = 'x' ∧ isHexDigit c11 ∧ isHexDigit c12 then
      (match utf8DecodeBytes
          [16 * hexVal c3 + hexVal c4, 16 * hexVal c7 + hexVal c8,
           16 * hexVal c11 + hexVal c12] with
       | some out => out
       | none => [c1, c2, c3, c4, c5, c6, c7, c8, c9, c10, c11, c12]) ++ decodeTriples cs
    else
      c1 :: decodeTriples (c2 :: c3 :: c4 :: c5 :: c6 :: c7 :: c8 :: c9 :: c10 :: c11 :: c12 :: cs)
  | c :: cs => c :: decodeTriples cs
  | [] => []

/-- Second `re.sub` pass (line 32): two consecutive literal `\xHH` groups. -/
def decodePairs : List Char → List Char
  | c1 :: c2 :: c3 :: c4 :: c5 :: c6 :: c7 :: c8 :: cs =>
    if c1 = '\\' ∧ c2 = 'x' ∧ isHexDigit c3 ∧ isHexDigit c4 ∧
       c5 = '\\' ∧ c6 = 'x' ∧ isHexDigit c7 ∧ isHexDigit c8 then
      (match utf8DecodeBytes [16 * hexVal c3 + hexVal c4, 16 * hexVal c7 + hexVal c8] with
       | some out => out
       | none => [c1, c2, c3, c4, c5, c6, c7, c8]) ++ decodePairs cs
    else
      c1 :: decodePairs (c2 :: c3 :: c4 :: c5 :: c6 :: c7 :: c8 :: cs)
  | c :: cs => c :: decodePairs cs
  | [] => []

/-- Third `re.sub` pass (line 40): each remaining single literal `\xHH`
group becomes `chr(int(HH, 16))`, always a valid code point 0–255, so
`decode_single` never takes its fallback branch. -/
def decodeSingles : List Char → List Char
  | c1 :: c2 :: c3 :: c4 :: cs =>
    if c1 = '\\' ∧ c2 = 'x' ∧ isHexDigit c3 ∧ isHexDigit c4 then
      Char.ofNat (16 * hexVal c3 + hexVal c4) :: decodeSingles cs
    else
      c1 :: decodeSingles (c2 :: c3 :: c4 :: cs)
  | c :: cs => c :: decodeSingles cs
  | [] => []

/-- `_decode_literal_hex_sequences` (name_utils.py lines 6–41), string
branch: the three passes in source order. -/
def decode_literal_hex_sequences (s : List Char) : List Char :=
  decodeSingles (decodePairs (decodeTriples s))

/-- NFD of a string: concatenation of the character decompositions. -/
def strNFD : List Char → List Char
  | [] => []
  | c :: cs => nfd c ++ strNFD cs

/-- `_strip_accents` (lines 44–49), string branch: NFD-decompose, then drop
every character of category Mn. -/
def strip_accents (s : List Char) : List Char :=
  (strNFD s).filter (fun c => !(isMn c))

/-- Worker for Python `str.split()` (no argument): split on runs of
whitespace, discarding empty pieces; `acc` is the current token, reversed. -/
def splitWsAux : List Char → List Char → List (List Char)
  | acc, [] => if acc = [] then [] else [acc.reverse]
  | acc, c :: cs =>
    if isSpaceCh c then
      if acc = [] then splitWsAux [] cs else acc.reverse :: splitWsAux [] cs
    else splitWsAux (c :: acc) cs

/-- Python `str.split()` with no argument. -/
def pySplit (s : List Char) : List (List Char) := splitWsAux [] s

/-- Python `" ".join(tokens)`. -/
def joinSpace : List (List Char) → List Char
  | [] => []
  | [t] => t
  | t :: ts => t ++ ' ' :: joinSpace ts

/-- The constant `suffix_tokens` set of `_strip_suffixes` (line 59). -/
def suffix_tokens : List (List Char) :=
  ["jr".toList, "sr".toList, "ii".toList, "iii".toList, "iv".toList, "v".toList]

/-- `_strip_suffixes` (lines 52–61), string branch: split on whitespace,
drop tokens that are members of the suffix set, rejoin with single
spaces. -/
def strip_suffixes (s : List Char) : List Char :=
  joinSpace ((pySplit s).filter (fun t => decide (¬ t ∈ suffix_tokens)))

/-- Python `str.replace(p, rep)` for a single-character pattern `p`. -/
def pyReplaceChar (p : Char) (rep : List Char) : List Char → List Char
  | [] => []
  | c :: cs => if c = p then rep ++ pyReplaceChar p rep cs else c :: pyReplaceChar p rep cs

/-- Python `text.replace("\\ ", " ")` (line 94): left-to-right
non-overlapping replacement of the two-character pattern
backslash-space by a single space. -/
def replaceBackslashSpace : List Char → List Char
  | [] => []
  | [c] => [c]
  | c :: d :: cs =>
    if c = '\\' ∧ d = ' ' then ' ' :: replaceBackslashSpace cs
    else c :: replaceBackslashSpace (d :: cs)

/-- Worker for `re.sub(r"\\s+", " ", text)` (lines 102 and 108).  The raw
pattern is backslash-backslash-s-plus, i.e. a literal backslash followed by
one or more letter-s characters — not a whitespace class.  `inRun` records
that the scanner is inside a match whose replacement was already emitted,
so further `s` characters are consumed silently. -/
def reSubBSAux : Bool → List Char → List Char
  | _, [] => []
  | inRun, [c] => if inRun ∧ c = 's' then [] else [c]
  | inRun, c :: d :: cs =>
    if inRun ∧ c = 's' then reSubBSAux true (d :: cs)
    else if c = '\\' ∧ d = 's' then ' ' :: reSubBSAux true cs
    else c :: reSubBSAux false (d :: cs)

/-- `re.sub(r"\\s+", " ", text)` as it appears at lines 102 and 108. -/
def reSub102 (s : List Char) : List Char := reSubBSAux false s

/-- Python `str.strip()`: drop leading and trailing whitespace. -/
def pyStrip (s : List Char) : List Char :=
  (((s.dropWhile isSpaceCh).reverse).dropWhile isSpaceCh).reverse

/-- State of `text` after line 91 of `normalize_name_for_blocking`:
decode literal hex sequences, strip accents, lowercase, strip. -/
def stage3 (s : List Char) : List Char :=
  pyStrip ((strip_accents (decode_literal_hex_sequences s)).map pyLower)

/-- State of `text` after line 99: the backslash and punctuation
replacements of step 4, in source order (lines 94–99). -/
def stage4 (s : List Char) : List Char :=
  pyReplaceChar '\'' []
    (pyReplaceChar '-' [' ']
      (pyReplaceChar ',' []
        (pyReplaceChar '.' []
          (pyReplaceChar '\\' [' ']
            (replaceBackslashSpace (stage3 s))))))

/-- State of `text` after line 102. -/
def stage5 (s : List Char) : List Char := pyStrip (reSub102 (stage4 s))

/-- State of `text` after line 105. -/
def stage6 (s : List Char) : List Char := strip_suffixes (stage5 s)

/-- `normalize_name_for_blocking` (lines 64–109), string branch. -/
def normalize_str (s : List Char) : List Char := pyStrip (reSub102 (stage6 s))

/-- Python values a caller may pass: strings and the non-string inputs the
spec names (`None`, numbers, lists). -/
inductive PyValue where
  | str : List Char → PyValue
  | pynone : PyValue
  | int : Int → PyValue
  | list : List PyValue → PyValue

/-- `normalize_name_for_blocking` including the `isinstance` guard of
lines 81–82: non-string input returns the empty string. -/
def normalize_name_for_blocking : PyValue → List Char
  | PyValue.str s => normalize_str s
  | _ => []

/-- Variant of `normalize_name_for_blocking` (string branch) with line 94
(`text.replace("\\ ", " ")`) deleted, as described by claim C9. -/
def stage4_no94 (s : List Char) : List Char :=
  pyReplaceChar '\'' []
    (pyReplaceChar '-' [' ']
      (pyReplaceChar ',' []
        (pyReplaceChar '.' []
          (pyReplaceChar '\\' [' '] (stage3 s)))))

/-- The C9 variant pipeline: identical to `normalize_str` except that
step 4 omits line 94. -/
def normalize_str_no94 (s : List Char) : List Char :=
  pyStrip (reSub102 (strip_suffixes (pyStrip (reSub102 (stage4_no94 s)))))

/-- The C10 variant pipeline: both `re.sub(r"\\s+", " ", text).strip()`
occurrences (lines 102 and 108) replaced by `text.strip()`. -/
def normalize_str_stripOnly (s : List Char) : List Char :=
  pyStrip (strip_suffixes (pyStrip (stage4 s)))

/-- Modelled from the spec (section 4.2): the reference accent stripper —
the concatenation, in order, of exactly those characters of the NFD
canonical decomposition whose Unicode general category is not Mn. -/
def strip_accents_spec (s : List Char) : List Char :=
  (strNFD s).filter (fun c => !(isMn c))

/-- A character already in normal form for the Unicode steps of the
pipeline: NFD-stable, not a combining mark, fixed by lowercasing. -/
def StableChar (c : Char) : Prop :=
  nfd c = [c] ∧ isMn c = false ∧ pyLower c = c

/-- A character of a fully normalized string: stable and none of the five
characters removed or replaced by step 4 of the orchestrator. -/
def NormChar (c : Char) : Prop :=
  StableChar c ∧ c ≠ '\\' ∧ c ≠ '.' ∧ c ≠ ',' ∧ c ≠ '-' ∧ c ≠ '\''

/-- Uppercase letters in the modelled character set. -/
def isUpperCh (c : Char) : Bool :=
  decide ((65 ≤ c.toNat ∧ c.toNat ≤ 90) ∨ c = 'É' ∨ c = 'Í')

/-- The token list the pipeline is left with after suffix filtering: the
whitespace-split of the step-4 string, minus suffix tokens.  The
characterization lemma shows `normalize_str` returns exactly these tokens
joined by single spaces. -/
def toks4 (s : List Char) : List (List Char) :=
  (pySplit (stage4 s)).filter (fun t => decide (¬ t ∈ suffix_tokens))

/-- The token list of the C9 variant pipeline, analogous to `toks4`. -/
def toks4v (s : List Char) : List (List Char) :=
  (pySplit (stage4_no94 s)).filter (fun t => decide (¬ t ∈ suffix_tokens))

/-- `SpIns x y` means `y` is `x` with some extra space characters
inserted, each directly in front of a space that is present in both
strings.  Splitting on whitespace cannot tell `x` and `y` apart. -/
inductive SpIns : List Char → List Char → Prop
  | nil : SpIns [] []
  | cons (c : Char) {x y : List Char} : SpIns x y → SpIns (c :: x) (c :: y)
  | dup {x y : List Char} : SpIns x y → SpIns (' ' :: x) (' ' :: ' ' :: y)

/-! ### Character-level lemmas -/

theorem char_toNat_ofNat (n : Nat) (h : n < 55296) : (Char.ofNat n).toNat = n := by
  simp only [Char.ofNat, Nat.isValidChar]
  rw [dif_pos (Or.inl h)]
  simp [Char.ofNatAux, Char.toNat, UInt32.toNat]

theorem char_ne_of_toNat_ne {c d : Char} (h : c.toNat ≠ d.toNat) : c ≠ d :=
  fun he => h (by rw [he])

theorem nfd_of_lt {c : Char} (h : c.toNat < 192) : nfd c = [c] := by
  unfold nfd
  rw [if_pos h]

theorem isMn_eq_false_of_lt {c : Char} (h : c.toNat < 768) : isMn c = false := by
  simp only [isMn, decide_eq_false_iff_not]
  omega

theorem stable_space : StableChar ' ' := by
  refine ⟨by decide, by decide, by decide⟩

theorem pyLower_of_lt {c : Char} (h : c.toNat < 192) (h2 : ¬ (65 ≤ c.toNat ∧ c.toNat ≤ 90)) :
    pyLower c = c := by
  unfold pyLower
  rw [if_neg h2, if_neg, if_neg]
  · exact char_ne_of_toNat_ne (by intro he; rw [he] at h; revert h; decide)
  · exact char_ne_of_toNat_ne (by intro he; rw [he] at h; revert h; decide)

theorem stableChar_of_lt {c : Char} (h : c.toNat < 192)
    (h2 : ¬ (65 ≤ c.toNat ∧ c.toNat ≤ 90)) : StableChar c :=
  ⟨nfd_of_lt h, isMn_eq_false_of_lt (by omega), pyLower_of_lt h h2⟩

theorem stable_pyLower {c : Char} (h : c.toNat < 192) : StableChar (pyLower c) := by
  by_cases h2 : 65 ≤ c.toNat ∧ c.toNat ≤ 90
  · have hlow : pyLower c = Char.ofNat (c.toNat + 32) := by
      unfold pyLower
      rw [if_pos h2]
    have htn : (Char.ofNat (c.toNat + 32)).toNat = c.toNat + 32 :=
      char_toNat_ofNat _ (by omega)
    rw [hlow]
    apply stableChar_of_lt (by omega)
    rw [htn]
    omega
  · rw [pyLower_of_lt h h2]
    exact stableChar_of_lt h h2

theorem stable_pyLower_of_mem_nfd {d e : Char} (he : e ∈ nfd d) (hm : isMn e = false) :
    StableChar (pyLower e) := by
  by_cases hd : d.toNat < 192
  · rw [nfd_of_lt hd] at he
    simp only [List.mem_singleton] at he
    subst he
    exact stable_pyLower hd
  · unfold nfd at he
    rw [if_neg hd] at he
    split_ifs at he with h1 h2 h3 h4
    · simp only [List.mem_cons, List.mem_singleton, List.not_mem_nil, or_false] at he
      rcases he with he | he <;> subst he
      · exact ⟨by decide, by decide, by decide⟩
      · exact absurd hm (by decide)
    · simp only [List.mem_cons, List.mem_singleton, List.not_mem_nil, or_false] at he
      rcases he with he | he <;> subst he
      · exact ⟨by decide, by decide, by decide⟩
      · exact absurd hm (by decide)
    · simp only [List.mem_cons, List.mem_singleton, List.not_mem_nil, or_false] at he
      rcases he with he | he <;> subst he
      · exact ⟨by decide, by decide, by decide⟩
      · exact absurd hm (by decide)
    · simp only [List.mem_cons, List.mem_singleton, List.not_mem_nil, or_false] at he
      rcases he with he | he <;> subst he
      · exact ⟨by decide, by decide, by decide⟩
      · exact absurd hm (by decide)
    · simp only [List.mem_singleton] at he
      subst he
      have hlow : pyLower e = e := by
        unfold pyLower
        rw [if_neg (by omega), if_neg h1, if_neg h3]
      rw [hlow]
      refine ⟨?_, hm, hlow⟩
      unfold nfd
      rw [if_neg hd, if_neg h1, if_neg h2, if_neg h3, if_neg h4]

/-! ### Generic list lemmas -/

theorem map_eq_self_of {f : Char → Char} {l : List Char} (h : ∀ c ∈ l, f c = c) :
    l.map f = l := by
  induction l with
  | nil => rfl
  | cons c cs ih =>
    simp only [List.map_cons, h c (List.mem_cons_self c cs),
      ih (fun x hx => h x (List.mem_cons_of_mem _ hx))]

theorem strNFD_eq_self {l : List Char} (h : ∀ c ∈ l, nfd c = [c]) : strNFD l = l := by
  induction l with
  | nil => rfl
  | cons c cs ih =>
    show nfd c ++ strNFD cs = c :: cs
    rw [h c (List.mem_cons_self c cs), ih (fun x hx => h x (List.mem_cons_of_mem _ hx))]
    rfl

theorem mem_strNFD {l : List Char} {e : Char} (h : e ∈ strNFD l) : ∃ d ∈ l, e ∈ nfd d := by
  induction l with
  | nil => exact absurd h (List.not_mem_nil e)
  | cons c cs ih =>
    rcases List.mem_append.mp h with h1 | h2
    · exact ⟨c, List.mem_cons_self c cs, h1⟩
    · rcases ih h2 with ⟨d, hd, hed⟩
      exact ⟨d, List.mem_cons_of_mem _ hd, hed⟩

/-! ### Lemmas about the replace primitives -/

theorem mem_pyReplaceChar {p : Char} {rep l : List Char} {c : Char}
    (h : c ∈ pyReplaceChar p rep l) : (c ∈ l ∧ c ≠ p) ∨ c ∈ rep := by
  induction l with
  | nil => exact absurd h (List.not_mem_nil c)
  | cons d cs ih =>
    rw [pyReplaceChar] at h
    by_cases hd : d = p
    · rw [if_pos hd] at h
      rcases List.mem_append.mp h with h1 | h2
      · exact Or.inr h1
      · rcases ih h2 with ⟨h3, h4⟩ | h5
        · exact Or.inl ⟨List.mem_cons_of_mem _ h3, h4⟩
        · exact Or.inr h5
    · rw [if_neg hd] at h
      rcases List.mem_cons.mp h with rfl | h2
      · exact Or.inl ⟨List.mem_cons_self _ _, hd⟩
      · rcases ih h2 with ⟨h3, h4⟩ | h5
        · exact Or.inl ⟨List.mem_cons_of_mem _ h3, h4⟩
        · exact Or.inr h5

theorem pyReplaceChar_eq_self {p : Char} {rep l : List Char} (h : p ∉ l) :
    pyReplaceChar p rep l = l := by
  induction l with
  | nil => rfl
  | cons d cs ih =>
    have hd : ¬ d = p := fun hdp => h (by rw [← hdp]; exact List.mem_cons_self d cs)
    rw [pyReplaceChar, if_neg hd, ih (fun hp => h (List.mem_cons_of_mem _ hp))]

theorem not_mem_pyReplaceChar {p : Char} {rep l : List Char} (h : p ∉ rep) :
    p ∉ pyReplaceChar p rep l := by
  intro hmem
  rcases mem_pyReplaceChar hmem with ⟨_, h2⟩ | h3
  · exact h2 rfl
  · exact h h3

theorem pyReplaceChar_nil_eq_filter (p : Char) (l : List Char) :
    pyReplaceChar p [] l = l.filter (fun c => decide (¬ c = p)) := by
  induction l with
  | nil => rfl
  | cons d cs ih =>
    rw [pyReplaceChar]
    by_cases hd : d = p
    · rw [if_pos hd]
      simp [List.filter_cons, hd, ih]
    · rw [if_neg hd]
      simp [List.filter_cons, hd, ih]

theorem pyReplaceChar_single_eq_map (p q : Char) (l : List Char) :
    pyReplaceChar p [q] l = l.map (fun c => if c = p then q else c) := by
  induction l with
  | nil => rfl
  | cons d cs ih =>
    rw [pyReplaceChar]
    by_cases hd : d = p <;> simp [hd, ih]

theorem mem_replaceBackslashSpace : ∀ (l : List Char), ∀ c ∈ replaceBackslashSpace l,
    c ∈ l ∨ c = ' ' := by
  intro l
  induction l using replaceBackslashSpace.induct with
  | case1 => intro c h; exact absurd h (List.not_mem_nil c)
  | case2 c0 => intro c h; exact Or.inl h
  | case3 c0 d cs hcond ih =>
    intro c h
    rw [replaceBackslashSpace, if_pos hcond] at h
    rcases List.mem_cons.mp h with rfl | h2
    · exact Or.inr rfl
    · rcases ih c h2 with h3 | h3
      · exact Or.inl (List.mem_cons_of_mem _ (List.mem_cons_of_mem _ h3))
      · exact Or.inr h3
  | case4 c0 d cs hcond ih =>
    intro c h
    rw [replaceBackslashSpace, if_neg hcond] at h
    rcases List.mem_cons.mp h with rfl | h2
    · exact Or.inl (List.mem_cons_self _ _)
    · rcases ih c h2 with h3 | h3
      · exact Or.inl (List.mem_cons_of_mem _ h3)
      · exact Or.inr h3

theorem replaceBackslashSpace_eq_self : ∀ (l : List Char), '\\' ∉ l →
    replaceBackslashSpace l = l := by
  intro l
  induction l using replaceBackslashSpace.induct with
  | case1 => intro _; rfl
  | case2 c0 => intro _; rfl
  | case3 c0 d cs hcond ih =>
    intro h
    exact absurd (by rw [hcond.1]; exact List.mem_cons_self _ _) h
  | case4 c0 d cs hcond ih =>
    intro h
    rw [replaceBackslashSpace, if_neg hcond, ih (fun hm => h (List.mem_cons_of_mem _ hm))]

theorem mem_reSubBSAux : ∀ (b : Bool) (l : List Char), ∀ c ∈ reSubBSAux b l,
    c ∈ l ∨ c = ' ' := by
  intro b l
  induction b, l using reSubBSAux.induct with
  | case1 b => intro c h; exact absurd h (List.not_mem_nil c)
  | case2 inRun c0 hcond =>
    intro c h
    rw [reSubBSAux, if_pos hcond] at h
    exact absurd h (List.not_mem_nil c)
  | case3 inRun c0 hcond =>
    intro c h
    rw [reSubBSAux, if_neg hcond] at h
    exact Or.inl h
  | case4 inRun c0 d cs hcond ih =>
    intro c h
    rw [reSubBSAux, if_pos hcond] at h
    rcases ih c h with h2 | h2
    · exact Or.inl (List.mem_cons_of_mem _ h2)
    · exact Or.inr h2
  | case5 inRun c0 d cs hcond hcond2 ih =>
    intro c h
    rw [reSubBSAux, if_neg hcond, if_pos hcond2] at h
    rcases List.mem_cons.mp h with rfl | h2
    · exact Or.inr rfl
    · rcases ih c h2 with h3 | h3
      · exact Or.inl (List.mem_cons_of_mem _ (List.mem_cons_of_mem _ h3))
      · exact Or.inr h3
  | case6 inRun c0 d cs hcond hcond2 ih =>
    intro c h
    rw [reSubBSAux, if_neg hcond, if_neg hcond2] at h
    rcases List.mem_cons.mp h with rfl | h2
    · exact Or.inl (List.mem_cons_self _ _)
    · rcases ih c h2 with h3 | h3
      · exact Or.inl (List.mem_cons_of_mem _ h3)
      · exact Or.inr h3

theorem reSubBSAux_false_eq_self : ∀ (l : List Char), '\\' ∉ l →
    reSubBSAux false l = l := by
  intro l
  have key : ∀ (b : Bool) (m : List Char), b = false → '\\' ∉ m → reSubBSAux b m = m := by
    intro b m
    induction b, m using reSubBSAux.induct with
    | case1 b => intro _ _; rfl
    | case2 inRun c0 hcond => intro hb _; rw [hb] at hcond; exact absurd hcond.1 (by simp)
    | case3 inRun c0 hcond => intro _ _; rw [reSubBSAux, if_neg hcond]
    | case4 inRun c0 d cs hcond ih =>
      intro hb _; rw [hb] at hcond; exact absurd hcond.1 (by simp)
    | case5 inRun c0 d cs hcond hcond2 ih =>
      intro _ h
      exact absurd (by rw [hcond2.1]; exact List.mem_cons_self _ _) h
    | case6 inRun c0 d cs hcond hcond2 ih =>
      intro _ h
      rw [reSubBSAux, if_neg hcond, if_neg hcond2,
        ih rfl (fun hm => h (List.mem_cons_of_mem _ hm))]
  exact key false l rfl

theorem reSub102_eq_self {l : List Char} (h : '\\' ∉ l) : reSub102 l = l :=
  reSubBSAux_false_eq_self l h

/-! ### Lemmas about strip, split and join -/

theorem mem_of_getLast?_eq {l : List Char} {c : Char} (h : l.getLast? = some c) : c ∈ l := by
  rcases List.mem_getLast?_eq_getLast (Option.mem_def.mpr h) with ⟨hne, rfl⟩
  exact List.getLast_mem hne

theorem getLast?_cons_ne_nil {x : Char} {l : List Char} (h : l ≠ []) :
    (x :: l).getLast? = l.getLast? := by
  cases l with
  | nil => exact absurd rfl h
  | cons y ys => exact List.getLast?_cons_cons

theorem mem_pyStrip {l : List Char} {c : Char} (h : c ∈ pyStrip l) : c ∈ l := by
  unfold pyStrip at h
  have h1 := List.mem_reverse.mp h
  have h2 := List.Sublist.mem h1 (List.dropWhile_sublist _)
  have h3 := List.mem_reverse.mp h2
  exact List.Sublist.mem h3 (List.dropWhile_sublist _)

theorem dropWhile_eq_self_of_head {p : Char → Bool} {l : List Char}
    (h : ∀ c, l.head? = some c → p c = false) : l.dropWhile p = l := by
  cases l with
  | nil => rfl
  | cons c cs => rw [List.dropWhile_cons, if_neg (by simp [h c rfl])]

theorem pyStrip_eq_self {l : List Char}
    (h1 : ∀ c, l.head? = some c → isSpaceCh c = false)
    (h2 : ∀ c, l.getLast? = some c → isSpaceCh c = false) : pyStrip l = l := by
  unfold pyStrip
  rw [dropWhile_eq_self_of_head h1]
  rw [dropWhile_eq_self_of_head
    (by intro c hc; exact h2 c (by rw [← List.head?_reverse]; exact hc))]
  exact List.reverse_reverse l

theorem joinSpace_eq (t : List Char) (ts : List (List Char)) (h : ts ≠ []) :
    joinSpace (t :: ts) = t ++ ' ' :: joinSpace ts := by
  cases ts with
  | nil => exact absurd rfl h
  | cons t2 ts2 => rfl

theorem splitWsAux_mem : ∀ (s acc : List Char), (∀ c ∈ acc, isSpaceCh c = false) →
    ∀ t ∈ splitWsAux acc s, t ≠ [] ∧ ∀ c ∈ t, isSpaceCh c = false ∧ (c ∈ acc ∨ c ∈ s) := by
  intro s
  induction s with
  | nil =>
    intro acc hacc t ht
    rw [splitWsAux] at ht
    by_cases ha : acc = []
    · rw [if_pos ha] at ht
      exact absurd ht (List.not_mem_nil t)
    · rw [if_neg ha] at ht
      simp only [List.mem_singleton] at ht
      subst ht
      refine ⟨by simpa using ha, fun c hc => ?_⟩
      exact ⟨hacc c (List.mem_reverse.mp hc), Or.inl (List.mem_reverse.mp hc)⟩
  | cons c0 cs ih =>
    intro acc hacc t ht
    rw [splitWsAux] at ht
    by_cases hsp : isSpaceCh c0 = true
    · rw [if_pos hsp] at ht
      by_cases ha : acc = []
      · rw [if_pos ha] at ht
        rcases ih [] (by simp) t ht with ⟨h1, h2⟩
        refine ⟨h1, fun c hc => ⟨(h2 c hc).1, ?_⟩⟩
        rcases (h2 c hc).2 with h3 | h3
        · exact absurd h3 (List.not_mem_nil c)
        · exact Or.inr (List.mem_cons_of_mem _ h3)
      · rw [if_neg ha] at ht
        rcases List.mem_cons.mp ht with rfl | ht2
        · refine ⟨by simpa using ha, fun c hc => ?_⟩
          exact ⟨hacc c (List.mem_reverse.mp hc), Or.inl (List.mem_reverse.mp hc)⟩
        · rcases ih [] (by simp) t ht2 with ⟨h1, h2⟩
          refine ⟨h1, fun c hc => ⟨(h2 c hc).1, ?_⟩⟩
          rcases (h2 c hc).2 with h3 | h3
          · exact absurd h3 (List.not_mem_nil c)
          · exact Or.inr (List.mem_cons_of_mem _ h3)
    · rw [if_neg hsp] at ht
      have hacc2 : ∀ c ∈ c0 :: acc, isSpaceCh c = false := by
        intro c hc
        rcases List.mem_cons.mp hc with rfl | hc2
        · simpa using hsp
        · exact hacc c hc2
      rcases ih (c0 :: acc) hacc2 t ht with ⟨h1, h2⟩
      refine ⟨h1, fun c hc => ⟨(h2 c hc).1, ?_⟩⟩
      rcases (h2 c hc).2 with h3 | h3
      · rcases List.mem_cons.mp h3 with rfl | h4
        · exact Or.inr (List.mem_cons_self _ _)
        · exact Or.inl h4
      · exact Or.inr (List.mem_cons_of_mem _ h3)

theorem splitWsAux_append_token : ∀ (t : List Char), (∀ c ∈ t, isSpaceCh c = false) →
    ∀ (acc s : List Char), splitWsAux acc (t ++ s) = splitWsAux (t.reverse ++ acc) s := by
  intro t
  induction t with
  | nil => intro _ acc s; simp
  | cons c cs ih =>
    intro h acc s
    have hc : isSpaceCh c = false := h c (List.mem_cons_self c cs)
    rw [List.cons_append, splitWsAux, if_neg (by simp [hc])]
    rw [ih (fun x hx => h x (List.mem_cons_of_mem _ hx)) (c :: acc) s]
    congr 1
    simp

theorem pySplit_joinSpace : ∀ (toks : List (List Char)),
    (∀ t ∈ toks, t ≠ [] ∧ ∀ c ∈ t, isSpaceCh c = false) →
    pySplit (joinSpace toks) = toks := by
  intro toks
  induction toks with
  | nil => intro _; rfl
  | cons t ts ih =>
    intro h
    rcases h t (List.mem_cons_self t ts) with ⟨ht1, ht2⟩
    cases ts with
    | nil =>
      show splitWsAux [] (joinSpace [t]) = [t]
      have : joinSpace [t] = t ++ [] := by simp [joinSpace]
      rw [this, splitWsAux_append_token t ht2 [] [], List.append_nil, splitWsAux,
        if_neg (by simpa using ht1), List.reverse_reverse]
    | cons t2 ts2 =>
      show splitWsAux [] (joinSpace (t :: t2 :: ts2)) = t :: t2 :: ts2
      rw [joinSpace_eq t _ (by simp), splitWsAux_append_token t ht2 [] _, List.append_nil,
        splitWsAux, if_pos (by decide), if_neg (by simpa using ht1), List.reverse_reverse]
      exact congrArg (t :: ·) (ih (fun x hx => h x (List.mem_cons_of_mem _ hx)))

theorem splitWsAux_allspace : ∀ (s : List Char), (∀ c ∈ s, isSpaceCh c = true) →
    splitWsAux [] s = [] := by
  intro s
  induction s with
  | nil => intro _; rfl
  | cons c cs ih =>
    intro h
    rw [splitWsAux, if_pos (h c (List.mem_cons_self c cs)), if_pos rfl]
    exact ih (fun x hx => h x (List.mem_cons_of_mem _ hx))

theorem splitWsAux_append_spaces : ∀ (s acc sp : List Char),
    (∀ c ∈ sp, isSpaceCh c = true) → splitWsAux acc (s ++ sp) = splitWsAux acc s := by
  intro s
  induction s with
  | nil =>
    intro acc sp hsp
    cases sp with
    | nil => rfl
    | cons c sp2 =>
      rw [List.nil_append]
      have h2 : splitWsAux [] sp2 = [] :=
        splitWsAux_allspace sp2 (fun x hx => hsp x (List.mem_cons_of_mem _ hx))
      conv_lhs => rw [splitWsAux]
      rw [if_pos (hsp c (List.mem_cons_self _ _))]
      by_cases ha : acc = []
      · rw [if_pos ha, h2, splitWsAux, if_pos ha]
      · rw [if_neg ha, h2, splitWsAux, if_neg ha]
  | cons c cs ih =>
    intro acc sp hsp
    rw [List.cons_append, splitWsAux, splitWsAux]
    by_cases hc : isSpaceCh c = true
    · rw [if_pos hc, if_pos hc]
      by_cases ha : acc = []
      · rw [if_pos ha, if_pos ha, ih [] sp hsp]
      · rw [if_neg ha, if_neg ha, ih [] sp hsp]
    · rw [if_neg hc, if_neg hc, ih (c :: acc) sp hsp]

theorem splitWsAux_dropWhile : ∀ (s : List Char),
    splitWsAux [] (s.dropWhile isSpaceCh) = splitWsAux [] s := by
  intro s
  induction s with
  | nil => rfl
  | cons c cs ih =>
    rw [List.dropWhile_cons]
    by_cases hc : isSpaceCh c = true
    · rw [if_pos hc, ih, splitWsAux, if_pos hc, if_pos rfl]
    · rw [if_neg hc]

theorem pySplit_pyStrip (s : List Char) : pySplit (pyStrip s) = pySplit s := by
  show splitWsAux [] (pyStrip s) = splitWsAux [] s
  rw [← splitWsAux_dropWhile s]
  have hsp : ∀ c ∈ (((s.dropWhile isSpaceCh).reverse.takeWhile isSpaceCh)).reverse,
      isSpaceCh c = true := by
    intro c hc
    exact List.mem_takeWhile_imp (List.mem_reverse.mp hc)
  have key : pyStrip s ++ (((s.dropWhile isSpaceCh).reverse.takeWhile isSpaceCh)).reverse
      = s.dropWhile isSpaceCh := by
    unfold pyStrip
    rw [← List.reverse_append, List.takeWhile_append_dropWhile, List.reverse_reverse]
  conv_rhs => rw [← key]
  rw [splitWsAux_append_spaces _ [] _ hsp]

theorem mem_joinSpace : ∀ (toks : List (List Char)) (c : Char), c ∈ joinSpace toks →
    (∃ t ∈ toks, c ∈ t) ∨ c = ' ' := by
  intro toks
  induction toks with
  | nil => intro c h; exact absurd h (List.not_mem_nil c)
  | cons t ts ih =>
    intro c h
    cases ts with
    | nil => exact Or.inl ⟨t, List.mem_cons_self _ _, h⟩
    | cons t2 ts2 =>
      rw [joinSpace_eq t _ (by simp)] at h
      rcases List.mem_append.mp h with h1 | h2
      · exact Or.inl ⟨t, List.mem_cons_self _ _, h1⟩
      · rcases List.mem_cons.mp h2 with rfl | h3
        · exact Or.inr rfl
        · rcases ih c h3 with ⟨t3, ht3, hc3⟩ | h4
          · exact Or.inl ⟨t3, List.mem_cons_of_mem _ ht3, hc3⟩
          · exact Or.inr h4

theorem joinSpace_ne_nil : ∀ (toks : List (List Char)), toks ≠ [] →
    (∀ t ∈ toks, t ≠ []) → joinSpace toks ≠ [] := by
  intro toks
  cases toks with
  | nil => intro h _; exact absurd rfl h
  | cons t ts =>
    intro _ h
    cases ts with
    | nil => exact h t (List.mem_cons_self _ _)
    | cons t2 ts2 =>
      rw [joinSpace_eq t _ (by simp)]
      intro hc
      rcases List.append_eq_nil.mp hc with ⟨_, h2⟩
      exact absurd h2 (by simp)

theorem joinSpace_head? : ∀ (toks : List (List Char)),
    (∀ t ∈ toks, t ≠ [] ∧ ∀ c ∈ t, isSpaceCh c = false) →
    ∀ c, (joinSpace toks).head? = some c → isSpaceCh c = false := by
  intro toks h c hc
  cases toks with
  | nil => simp [joinSpace] at hc
  | cons t ts =>
    rcases h t (List.mem_cons_self _ _) with ⟨ht1, ht2⟩
    cases t with
    | nil => exact absurd rfl ht1
    | cons c0 t0 =>
      have hh : (joinSpace ((c0 :: t0) :: ts)).head? = some c0 := by
        cases ts with
        | nil => rfl
        | cons t2 ts2 => rw [joinSpace_eq _ _ (by simp)]; rfl
      rw [hh] at hc
      injection hc with hc
      rw [← hc]
      exact ht2 _ (List.mem_cons_self _ _)

theorem joinSpace_getLast? : ∀ (toks : List (List Char)),
    (∀ t ∈ toks, t ≠ [] ∧ ∀ c ∈ t, isSpaceCh c = false) →
    ∀ c, (joinSpace toks).getLast? = some c → isSpaceCh c = false := by
  intro toks
  induction toks with
  | nil => intro _ c hc; simp [joinSpace] at hc
  | cons t ts ih =>
    intro h c hc
    cases ts with
    | nil =>
      rcases h t (List.mem_cons_self _ _) with ⟨_, ht2⟩
      exact ht2 c (mem_of_getLast?_eq hc)
    | cons t2 ts2 =>
      have hts : ∀ x ∈ t2 :: ts2, x ≠ [] ∧ ∀ c ∈ x, isSpaceCh c = false :=
        fun x hx => h x (List.mem_cons_of_mem _ hx)
      have hJ : joinSpace (t2 :: ts2) ≠ [] :=
        joinSpace_ne_nil _ (by simp) (fun x hx => (hts x hx).1)
      rw [joinSpace_eq t _ (by simp), List.getLast?_append,
        getLast?_cons_ne_nil hJ] at hc
      rcases hgl : (joinSpace (t2 :: ts2)).getLast? with _ | v
      · exact absurd hgl ((not_congr List.getLast?_eq_none_iff).mpr hJ)
      · rw [hgl] at hc
        simp only [Option.or] at hc
        injection hc with hc
        subst hc
        exact ih hts v hgl

theorem pyStrip_joinSpace (toks : List (List Char))
    (h : ∀ t ∈ toks, t ≠ [] ∧ ∀ c ∈ t, isSpaceCh c = false) :
    pyStrip (joinSpace toks) = joinSpace toks :=
  pyStrip_eq_self (joinSpace_head? toks h) (joinSpace_getLast? toks h)

/-! ### The hex decoder is the identity on backslash-free strings -/

theorem decodeTriples_eq_self : ∀ (l : List Char), '\\' ∉ l → decodeTriples l = l := by
  intro l
  induction l using decodeTriples.induct with
  | case1 c1 c2 c3 c4 c5 c6 c7 c8 c9 c10 c11 c12 cs hcond ih =>
    intro h
    exact absurd (by rw [hcond.1]; exact List.mem_cons_self _ _) h
  | case2 c1 c2 c3 c4 c5 c6 c7 c8 c9 c10 c11 c12 cs hcond ih =>
    intro h
    rw [decodeTriples.eq_1, if_neg hcond, ih (fun hm => h (List.mem_cons_of_mem _ hm))]
  | case3 c cs hshape ih =>
    intro h
    rw [decodeTriples.eq_2 c cs hshape, ih (fun hm => h (List.mem_cons_of_mem _ hm))]
  | case4 => intro _; rfl

theorem decodePairs_eq_self : ∀ (l : List Char), '\\' ∉ l → decodePairs l = l := by
  intro l
  induction l using decodePairs.induct with
  | case1 c1 c2 c3 c4 c5 c6 c7 c8 cs hcond ih =>
    intro h
    exact absurd (by rw [hcond.1]; exact List.mem_cons_self _ _) h
  | case2 c1 c2 c3 c4 c5 c6 c7 c8 cs hcond ih =>
    intro h
    rw [decodePairs.eq_1, if_neg hcond, ih (fun hm => h (List.mem_cons_of_mem _ hm))]
  | case3 c cs hshape ih =>
    intro h
    rw [decodePairs.eq_2 c cs hshape, ih (fun hm => h (List.mem_cons_of_mem _ hm))]
  | case4 => intro _; rfl

theorem decodeSingles_eq_self : ∀ (l : List Char), '\\' ∉ l → decodeSingles l = l := by
  intro l
  induction l using decodeSingles.induct with
  | case1 c1 c2 c3 c4 cs hcond ih =>
    intro h
    exact absurd (by rw [hcond.1]; exact List.mem_cons_self _ _) h
  | case2 c1 c2 c3 c4 cs hcond ih =>
    intro h
    rw [decodeSingles.eq_1, if_neg hcond, ih (fun hm => h (List.mem_cons_of_mem _ hm))]
  | case3 c cs hshape ih =>
    intro h
    rw [decodeSingles.eq_2 c cs hshape, ih (fun hm => h (List.mem_cons_of_mem _ hm))]
  | case4 => intro _; rfl

theorem decode_eq_self {l : List Char} (h : '\\' ∉ l) :
    decode_literal_hex_sequences l = l := by
  unfold decode_literal_hex_sequences
  rw [decodeTriples_eq_self l h, decodePairs_eq_self l h, decodeSingles_eq_self l h]

/-! ### Character tracking through the pipeline -/

theorem normChar_space : NormChar ' ' :=
  ⟨stable_space, by decide, by decide, by decide, by decide, by decide⟩

theorem stage3_stable (s : List Char) : ∀ c ∈ stage3 s, StableChar c := by
  intro c hc
  have hc2 := mem_pyStrip hc
  rcases List.mem_map.mp hc2 with ⟨e, he, rfl⟩
  have he2 := List.mem_filter.mp he
  rcases mem_strNFD he2.1 with ⟨d, _, hed⟩
  have hmn : isMn e = false := by simpa using he2.2
  exact stable_pyLower_of_mem_nfd hed hmn

theorem stage4_normChar (s : List Char) : ∀ c ∈ stage4 s, NormChar c := by
  intro c hc
  unfold stage4 at hc
  rcases mem_pyReplaceChar hc with ⟨hc1, hapos⟩ | hrep
  · rcases mem_pyReplaceChar hc1 with ⟨hc2, hdash⟩ | hrep
    · rcases mem_pyReplaceChar hc2 with ⟨hc3, hcomma⟩ | hrep
      · rcases mem_pyReplaceChar hc3 with ⟨hc4, hdot⟩ | hrep
        · rcases mem_pyReplaceChar hc4 with ⟨hc5, hbs⟩ | hrep
          · rcases mem_replaceBackslashSpace _ c hc5 with hc6 | hsp
            · exact ⟨stage3_stable s c hc6, hbs, hdot, hcomma, hdash, hapos⟩
            · subst hsp
              exact normChar_space
          · have : c = ' ' := by simpa using hrep
            subst this
            exact normChar_space
        · exact absurd hrep (List.not_mem_nil c)
      · exact absurd hrep (List.not_mem_nil c)
    · have : c = ' ' := by simpa using hrep
      subst this
      exact normChar_space
  · exact absurd hrep (List.not_mem_nil c)

theorem not_bs_stage4 (s : List Char) : '\\' ∉ stage4 s :=
  fun h => (stage4_normChar s _ h).2.1 rfl

theorem toks4_props (s : List Char) : ∀ t ∈ toks4 s,
    t ≠ [] ∧ (¬ t ∈ suffix_tokens) ∧ ∀ c ∈ t, isSpaceCh c = false ∧ NormChar c := by
  intro t ht
  have ht2 := List.mem_filter.mp ht
  have hsplit : t ∈ splitWsAux [] (stage4 s) := ht2.1
  have hprops := splitWsAux_mem (stage4 s) [] (by simp) t hsplit
  refine ⟨hprops.1, by simpa using ht2.2, fun c hc => ?_⟩
  rcases hprops.2 c hc with ⟨hsp, hmem⟩
  rcases hmem with h | h
  · exact absurd h (List.not_mem_nil c)
  · exact ⟨hsp, stage4_normChar s c h⟩

theorem toks4_tok_props (s : List Char) : ∀ t ∈ toks4 s,
    t ≠ [] ∧ ∀ c ∈ t, isSpaceCh c = false :=
  fun t ht => ⟨(toks4_props s t ht).1, fun c hc => ((toks4_props s t ht).2.2 c hc).1⟩

/-! ### Characterization of the pipeline output -/

theorem join_toks4_normChar (s : List Char) : ∀ c ∈ joinSpace (toks4 s), NormChar c := by
  intro c hc
  rcases mem_joinSpace _ _ hc with ⟨t, ht, hct⟩ | rfl
  · exact ((toks4_props s t ht).2.2 _ hct).2
  · exact normChar_space

theorem stage6_eq_join (s : List Char) : stage6 s = joinSpace (toks4 s) := by
  unfold stage6 strip_suffixes
  have h5 : stage5 s = pyStrip (stage4 s) := by
    unfold stage5
    rw [reSub102_eq_self (not_bs_stage4 s)]
  rw [h5, pySplit_pyStrip]
  rfl

theorem not_bs_join_toks4 (s : List Char) : '\\' ∉ joinSpace (toks4 s) :=
  fun h => (join_toks4_normChar s _ h).2.1 rfl

theorem normalize_str_eq_join (s : List Char) : normalize_str s = joinSpace (toks4 s) := by
  show pyStrip (reSub102 (stage6 s)) = joinSpace (toks4 s)
  rw [stage6_eq_join, reSub102_eq_self (not_bs_join_toks4 s),
    pyStrip_joinSpace _ (toks4_tok_props s)]

/-! ### Idempotence -/

theorem normalize_str_fixed (toks : List (List Char))
    (htok : ∀ t ∈ toks, t ≠ [] ∧ (¬ t ∈ suffix_tokens) ∧
      ∀ c ∈ t, isSpaceCh c = false ∧ NormChar c) :
    normalize_str (joinSpace toks) = joinSpace toks := by
  have htok2 : ∀ t ∈ toks, t ≠ [] ∧ ∀ c ∈ t, isSpaceCh c = false :=
    fun t ht => ⟨(htok t ht).1, fun c hc => ((htok t ht).2.2 c hc).1⟩
  have hyNorm : ∀ c ∈ joinSpace toks, NormChar c := by
    intro c hc
    rcases mem_joinSpace _ _ hc with ⟨t, ht, hct⟩ | rfl
    · exact ((htok t ht).2.2 _ hct).2
    · exact normChar_space
  have hnobs : '\\' ∉ joinSpace toks := fun h => (hyNorm _ h).2.1 rfl
  have hnodot : '.' ∉ joinSpace toks := fun h => (hyNorm _ h).2.2.1 rfl
  have hnocomma : ',' ∉ joinSpace toks := fun h => (hyNorm _ h).2.2.2.1 rfl
  have hnodash : '-' ∉ joinSpace toks := fun h => (hyNorm _ h).2.2.2.2.1 rfl
  have hnoapos : '\'' ∉ joinSpace toks := fun h => (hyNorm _ h).2.2.2.2.2 rfl
  have h1 : decode_literal_hex_sequences (joinSpace toks) = joinSpace toks :=
    decode_eq_self hnobs
  have h2 : strip_accents (joinSpace toks) = joinSpace toks := by
    unfold strip_accents
    rw [strNFD_eq_self (fun c hc => (hyNorm c hc).1.1)]
    rw [List.filter_eq_self.mpr (fun a ha => by simp [(hyNorm a ha).1.2.1])]
  have h3 : (joinSpace toks).map pyLower = joinSpace toks :=
    map_eq_self_of (fun c hc => (hyNorm c hc).1.2.2)
  have h4 : pyStrip (joinSpace toks) = joinSpace toks := pyStrip_joinSpace _ htok2
  have hstage3 : stage3 (joinSpace toks) = joinSpace toks := by
    unfold stage3
    rw [h1, h2, h3, h4]
  have hrbs : replaceBackslashSpace (joinSpace toks) = joinSpace toks :=
    replaceBackslashSpace_eq_self _ hnobs
  have hstage4 : stage4 (joinSpace toks) = joinSpace toks := by
    unfold stage4
    rw [hstage3, hrbs, pyReplaceChar_eq_self hnobs, pyReplaceChar_eq_self hnodot,
      pyReplaceChar_eq_self hnocomma, pyReplaceChar_eq_self hnodash,
      pyReplaceChar_eq_self hnoapos]
  have hstage5 : stage5 (joinSpace toks) = joinSpace toks := by
    unfold stage5
    rw [hstage4, reSub102_eq_self hnobs, h4]
  have hstage6 : stage6 (joinSpace toks) = joinSpace toks := by
    unfold stage6 strip_suffixes
    rw [hstage5]
    show joinSpace (List.filter _ (pySplit (joinSpace toks))) = joinSpace toks
    rw [pySplit_joinSpace toks htok2,
      List.filter_eq_self.mpr (fun t ht => by simpa using (htok t ht).2.1)]
  show pyStrip (reSub102 (stage6 (joinSpace toks))) = joinSpace toks
  rw [hstage6, reSub102_eq_self hnobs, h4]

theorem normalize_str_idem (s : List Char) :
    normalize_str (normalize_str s) = normalize_str s := by
  rw [normalize_str_eq_join s]
  exact normalize_str_fixed _ (toks4_props s)

/-! ### Space-insertion relation: splitting cannot tell related strings apart -/

theorem SpIns.refl : ∀ (l : List Char), SpIns l l := by
  intro l
  induction l with
  | nil => exact SpIns.nil
  | cons c cs ih => exact SpIns.cons c ih

theorem SpIns.splitWsAux_eq {x y : List Char} (h : SpIns x y) :
    ∀ acc, splitWsAux acc x = splitWsAux acc y := by
  induction h with
  | nil => intro _; rfl
  | cons c h ih =>
    intro acc
    rw [splitWsAux, splitWsAux]
    by_cases hc : isSpaceCh c = true
    · rw [if_pos hc, if_pos hc]
      by_cases ha : acc = []
      · rw [if_pos ha, if_pos ha, ih []]
      · rw [if_neg ha, if_neg ha, ih []]
    · rw [if_neg hc, if_neg hc, ih (c :: acc)]
  | dup h ih =>
    intro acc
    rw [splitWsAux, splitWsAux]
    have hsp : isSpaceCh ' ' = true := by decide
    rw [if_pos hsp, if_pos hsp]
    by_cases ha : acc = []
    · rw [if_pos ha, if_pos ha, splitWsAux, if_pos hsp, if_pos rfl, ih []]
    · rw [if_neg ha, if_neg ha, splitWsAux, if_pos hsp, if_pos rfl, ih []]

theorem SpIns.map_rel {x y : List Char} (h : SpIns x y) (m : Char → Char)
    (hm : m ' ' = ' ') : SpIns (x.map m) (y.map m) := by
  induction h with
  | nil => exact SpIns.nil
  | cons c h ih => exact SpIns.cons (m c) ih
  | dup h ih =>
    simp only [List.map_cons, hm]
    exact SpIns.dup ih

theorem SpIns.filter_rel {x y : List Char} (h : SpIns x y) (p : Char → Bool)
    (hp : p ' ' = true) : SpIns (x.filter p) (y.filter p) := by
  induction h with
  | nil => exact SpIns.nil
  | cons c h ih =>
    by_cases hc : p c = true
    · simpa [List.filter_cons, hc] using SpIns.cons c ih
    · simpa [List.filter_cons, hc] using ih
  | dup h ih =>
    simp only [List.filter_cons, hp, if_pos]
    exact SpIns.dup ih

theorem spIns_backslash : ∀ (w : List Char),
    SpIns (pyReplaceChar '\\' [' '] (replaceBackslashSpace w))
      (pyReplaceChar '\\' [' '] w) := by
  intro w
  induction w using replaceBackslashSpace.induct with
  | case1 => exact SpIns.nil
  | case2 c => exact SpIns.refl _
  | case3 c d cs hcond ih =>
    rcases hcond with ⟨rfl, rfl⟩
    rw [replaceBackslashSpace, if_pos ⟨rfl, rfl⟩]
    rw [pyReplaceChar, if_neg (by decide)]
    rw [pyReplaceChar, if_pos rfl]
    rw [pyReplaceChar, if_neg (by decide)]
    simp only [List.singleton_append]
    exact SpIns.dup ih
  | case4 c d cs hcond ih =>
    rw [replaceBackslashSpace, if_neg hcond]
    by_cases hc : c = '\\'
    · rw [pyReplaceChar, if_pos hc]
      conv_rhs => rw [pyReplaceChar, if_pos hc]
      simp only [List.singleton_append]
      exact SpIns.cons ' ' ih
    · rw [pyReplaceChar, if_neg hc]
      conv_rhs => rw [pyReplaceChar, if_neg hc]
      exact SpIns.cons c ih

theorem stage4_spIns (s : List Char) : SpIns (stage4 s) (stage4_no94 s) := by
  have h0 := spIns_backslash (stage3 s)
  have h1 := SpIns.filter_rel h0 (fun c => decide (¬ c = '.')) (by decide)
  rw [← pyReplaceChar_nil_eq_filter '.', ← pyReplaceChar_nil_eq_filter '.'] at h1
  have h2 := SpIns.filter_rel h1 (fun c => decide (¬ c = ',')) (by decide)
  rw [← pyReplaceChar_nil_eq_filter ',', ← pyReplaceChar_nil_eq_filter ','] at h2
  have h3 := SpIns.map_rel h2 (fun c => if c = '-' then ' ' else c) (by decide)
  rw [← pyReplaceChar_single_eq_map '-' ' ', ← pyReplaceChar_single_eq_map '-' ' '] at h3
  have h4 := SpIns.filter_rel h3 (fun c => decide (¬ c = '\'')) (by decide)
  rw [← pyReplaceChar_nil_eq_filter '\'', ← pyReplaceChar_nil_eq_filter '\''] at h4
  unfold stage4 stage4_no94
  exact h4

/-! ### The two variant pipelines agree with the original -/

theorem stage4_no94_normChar (s : List Char) : ∀ c ∈ stage4_no94 s, NormChar c := by
  intro c hc
  unfold stage4_no94 at hc
  rcases mem_pyReplaceChar hc with ⟨hc1, hapos⟩ | hrep
  · rcases mem_pyReplaceChar hc1 with ⟨hc2, hdash⟩ | hrep
    · rcases mem_pyReplaceChar hc2 with ⟨hc3, hcomma⟩ | hrep
      · rcases mem_pyReplaceChar hc3 with ⟨hc4, hdot⟩ | hrep
        · rcases mem_pyReplaceChar hc4 with ⟨hc5, hbs⟩ | hrep
          · exact ⟨stage3_stable s c hc5, hbs, hdot, hcomma, hdash, hapos⟩
          · have : c = ' ' := by simpa using hrep
            subst this
            exact normChar_space
        · exact absurd hrep (List.not_mem_nil c)
      · exact absurd hrep (List.not_mem_nil c)
    · have : c = ' ' := by simpa using hrep
      subst this
      exact normChar_space
  · exact absurd hrep (List.not_mem_nil c)

theorem not_bs_stage4_no94 (s : List Char) : '\\' ∉ stage4_no94 s :=
  fun h => (stage4_no94_normChar s _ h).2.1 rfl

theorem toks4v_props (s : List Char) : ∀ t ∈ toks4v s,
    t ≠ [] ∧ (¬ t ∈ suffix_tokens) ∧ ∀ c ∈ t, isSpaceCh c = false ∧ NormChar c := by
  intro t ht
  have ht2 := List.mem_filter.mp ht
  have hsplit : t ∈ splitWsAux [] (stage4_no94 s) := ht2.1
  have hprops := splitWsAux_mem (stage4_no94 s) [] (by simp) t hsplit
  refine ⟨hprops.1, by simpa using ht2.2, fun c hc => ?_⟩
  rcases hprops.2 c hc with ⟨hsp, hmem⟩
  rcases hmem with h | h
  · exact absurd h (List.not_mem_nil c)
  · exact ⟨hsp, stage4_no94_normChar s c h⟩

theorem toks4v_tok_props (s : List Char) : ∀ t ∈ toks4v s,
    t ≠ [] ∧ ∀ c ∈ t, isSpaceCh c = false :=
  fun t ht => ⟨(toks4v_props s t ht).1, fun c hc => ((toks4v_props s t ht).2.2 c hc).1⟩

theorem not_bs_join_toks4v (s : List Char) : '\\' ∉ joinSpace (toks4v s) := by
  intro h
  rcases mem_joinSpace _ _ h with ⟨t, ht, hct⟩ | heq
  · exact ((toks4v_props s t ht).2.2 _ hct).2.2.1 rfl
  · exact absurd heq (by decide)

theorem normalize_no94_eq_join (s : List Char) :
    normalize_str_no94 s = joinSpace (toks4v s) := by
  unfold normalize_str_no94
  rw [reSub102_eq_self (not_bs_stage4_no94 s)]
  have h6 : strip_suffixes (pyStrip (stage4_no94 s)) = joinSpace (toks4v s) := by
    unfold strip_suffixes
    rw [pySplit_pyStrip]
    rfl
  rw [h6, reSub102_eq_self (not_bs_join_toks4v s),
    pyStrip_joinSpace _ (toks4v_tok_props s)]

theorem toks4_eq_toks4v (s : List Char) : toks4 s = toks4v s := by
  unfold toks4 toks4v pySplit
  rw [SpIns.splitWsAux_eq (stage4_spIns s) []]

theorem normalize_no94_agrees (s : List Char) :
    normalize_str_no94 s = normalize_str s := by
  rw [normalize_no94_eq_join, normalize_str_eq_join, toks4_eq_toks4v]

theorem not_bs_stage6 (s : List Char) : '\\' ∉ stage6 s := by
  rw [stage6_eq_join]
  exact not_bs_join_toks4 s

theorem normalize_stripOnly_agrees (s : List Char) :
    normalize_str_stripOnly s = normalize_str s := by
  have h6 : strip_suffixes (pyStrip (stage4 s)) = stage6 s := by
    unfold stage6 stage5
    rw [reSub102_eq_self (not_bs_stage4 s)]
  unfold normalize_str_stripOnly
  rw [h6]
  show pyStrip (stage6 s) = normalize_str s
  rw [stage6_eq_join, pyStrip_joinSpace _ (toks4_tok_props s), normalize_str_eq_join]

/-! ### Shape of the normalized output -/

theorem not_upper_of_lower_fixed {c : Char} (h : pyLower c = c) : isUpperCh c = false := by
  unfold pyLower at h
  by_cases h1 : 65 ≤ c.toNat ∧ c.toNat ≤ 90
  · rw [if_pos h1] at h
    have h2 := congrArg Char.toNat h
    rw [char_toNat_ofNat _ (by omega)] at h2
    omega
  · rw [if_neg h1] at h
    by_cases h2 : c = 'É'
    · rw [if_pos h2] at h
      rw [h2] at h
      exact absurd h (by decide)
    · rw [if_neg h2] at h
      by_cases h3 : c = 'Í'
      · rw [if_pos h3] at h
        rw [h3] at h
        exact absurd h (by decide)
      · simp [isUpperCh, h1, h2, h3]

theorem chain'_nonspace {t : List Char} (h : ∀ c ∈ t, isSpaceCh c = false) :
    List.Chain' (fun a b => ¬(isSpaceCh a = true ∧ isSpaceCh b = true)) t := by
  induction t with
  | nil => exact List.chain'_nil
  | cons c cs ih =>
    rw [List.chain'_cons']
    refine ⟨fun y _ hc => ?_, ih (fun x hx => h x (List.mem_cons_of_mem _ hx))⟩
    exact absurd hc.1 (by simp [h c (List.mem_cons_self _ _)])

theorem chain'_joinSpace : ∀ (toks : List (List Char)),
    (∀ t ∈ toks, t ≠ [] ∧ ∀ c ∈ t, isSpaceCh c = false) →
    List.Chain' (fun a b => ¬(isSpaceCh a = true ∧ isSpaceCh b = true)) (joinSpace toks) := by
  intro toks
  induction toks with
  | nil => intro _; exact List.chain'_nil
  | cons t ts ih =>
    intro h
    cases ts with
    | nil => exact chain'_nonspace (h t (List.mem_cons_self _ _)).2
    | cons t2 ts2 =>
      rw [joinSpace_eq t _ (by simp), List.chain'_append]
      refine ⟨chain'_nonspace (h t (List.mem_cons_self _ _)).2, ?_, ?_⟩
      · rw [List.chain'_cons']
        refine ⟨?_, ih (fun x hx => h x (List.mem_cons_of_mem _ hx))⟩
        intro y hy hc
        have hns := joinSpace_head? (t2 :: ts2)
          (fun x hx => h x (List.mem_cons_of_mem _ hx)) y (Option.mem_def.mp hy)
        exact absurd hc.2 (by simp [hns])
      · intro x hx y _ hc
        have hxt : x ∈ t := mem_of_getLast?_eq (Option.mem_def.mp hx)
        exact absurd hc.1 (by simp [(h t (List.mem_cons_self _ _)).2 x hxt])

/-! ### Claim theorems -/

/-- Claim C1, counterexample: on the eight-character input a, b, backslash,
x, Z, Z, c, d, `normalize_name_for_blocking` does not return the string
with the backslash kept intact ("ab\xzzcd"); it returns "ab xzzcd",
because line 95 replaces the backslash with a space. -/
theorem C1_counterexample :
    normalize_str ("ab\\xZZcd".toList) ≠ "ab\\xzzcd".toList ∧
    normalize_str ("ab\\xZZcd".toList) = "ab xzzcd".toList :=
  ⟨by decide, by decide⟩

/-- Claim C1 as amended: on input "ab\xZZcd" the hex decoder leaves the
invalid `\xZZ` fragment intact (it is neither decoded nor dropped and no
exception is raised), but the punctuation step of the orchestrator then
replaces the literal backslash with a space, so the function returns
"ab xzzcd" — the fragment lowercased with its backslash turned into a
space. -/
theorem C1_amended :
    decode_literal_hex_sequences ("ab\\xZZcd".toList) = "ab\\xZZcd".toList ∧
    normalize_str ("ab\\xZZcd".toList) = "ab xzzcd".toList :=
  ⟨by decide, by decide⟩

/-- Claim C2: `normalize_name_for_blocking` is idempotent — applying it to
its own output returns that output unchanged, for every string. -/
theorem C2_idempotent (s : List Char) :
    normalize_name_for_blocking (PyValue.str (normalize_name_for_blocking (PyValue.str s)))
      = normalize_name_for_blocking (PyValue.str s) :=
  normalize_str_idem s

set_option maxHeartbeats 1000000 in
/-- Claim C3: for every input string the output of
`normalize_name_for_blocking` contains no uppercase letter, no period,
comma, hyphen, apostrophe or backslash, every whitespace character in it
is a single space with no two adjacent whitespace characters, it has no
leading or trailing whitespace, and none of its space-delimited tokens is
a suffix token; in particular "  John   Smith  " normalizes to
"john smith". -/
theorem C3_postcondition :
    (∀ s : List Char,
      (∀ c ∈ normalize_str s, isUpperCh c = false ∧ c ≠ '.' ∧ c ≠ ',' ∧ c ≠ '-' ∧
        c ≠ '\'' ∧ c ≠ '\\' ∧ (isSpaceCh c = true → c = ' ')) ∧
      List.Chain' (fun a b => ¬(isSpaceCh a = true ∧ isSpaceCh b = true)) (normalize_str s) ∧
      (∀ c, (normalize_str s).head? = some c → isSpaceCh c = false) ∧
      (∀ c, (normalize_str s).getLast? = some c → isSpaceCh c = false) ∧
      (∀ t ∈ pySplit (normalize_str s), ¬ t ∈ suffix_tokens)) ∧
    normalize_str ("  John   Smith  ".toList) = "john smith".toList := by
  refine ⟨fun s => ?_, by decide⟩
  rw [normalize_str_eq_join s]
  refine ⟨fun c hc => ?_, chain'_joinSpace _ (toks4_tok_props s),
    joinSpace_head? _ (toks4_tok_props s), joinSpace_getLast? _ (toks4_tok_props s), ?_⟩
  · have hnc := join_toks4_normChar s c hc
    refine ⟨not_upper_of_lower_fixed hnc.1.2.2, hnc.2.2.1, hnc.2.2.2.1,
      hnc.2.2.2.2.1, hnc.2.2.2.2.2, hnc.2.1, ?_⟩
    intro hsp
    rcases mem_joinSpace _ _ hc with ⟨t, ht, hct⟩ | rfl
    · exact absurd hsp (by simp [((toks4_props s t ht).2.2 _ hct).1])
    · rfl
  · rw [pySplit_joinSpace _ (toks4_tok_props s)]
    exact fun t ht => (toks4_props s t ht).2.1

/-- Claim C4: `normalize_name_for_blocking` is total — in this embedding
it is a total function on all Python values — and every non-string input
(None, numbers, lists) returns exactly the empty string. -/
theorem C4_total_nonstring (v : PyValue) (h : ∀ s, v ≠ PyValue.str s) :
    normalize_name_for_blocking v = [] := by
  cases v with
  | str s => exact absurd rfl (h s)
  | pynone => rfl
  | int n => rfl
  | list l => rfl

/-- Witness for claim C4 at the concrete input `None`. -/
theorem C4_witness :
    (∀ s, PyValue.pynone ≠ PyValue.str s) ∧
      normalize_name_for_blocking PyValue.pynone = [] :=
  ⟨fun _ h => PyValue.noConfusion h,
    C4_total_nonstring PyValue.pynone (fun _ h => PyValue.noConfusion h)⟩

/-- Claim C5: the hex-escape decoder applies its three passes strictly in
order — triples, then pairs, then singles, each reverting failed decodes
to the matched text — and on the literal text "Jos\xc3\xa9 Garc\xc3\xada"
the full pipeline yields "jose garcia" (the decoder itself yields
"José García" before accent stripping). -/
theorem C5_hex_decode :
    (∀ s : List Char, decode_literal_hex_sequences s
        = decodeSingles (decodePairs (decodeTriples s))) ∧
    decode_literal_hex_sequences ("Jos\\xc3\\xa9 Garc\\xc3\\xada".toList)
      = "José García".toList ∧
    normalize_str ("Jos\\xc3\\xa9 Garc\\xc3\\xada".toList) = "jose garcia".toList :=
  ⟨fun _ => rfl, by decide, by decide⟩

/-- Claim C6: the accent stripper equals the reference definition — keep,
in order, exactly the non-Mn characters of the NFD decomposition — and
"José" and "Jose" both normalize to "jose". -/
theorem C6_accents :
    (∀ s : List Char, strip_accents s = strip_accents_spec s) ∧
    normalize_str ("José".toList) = "jose".toList ∧
    normalize_str ("Jose".toList) = "jose".toList :=
  ⟨fun _ => rfl, by decide, by decide⟩

/-- Claim C7: suffix removal is exact whole-token filtering — split on
whitespace, drop exactly the tokens equal to a member of the suffix set
wherever they occur, rejoin with single spaces in order — so "Vincent
Price" keeps the token "vincent", "John Smith III" loses "iii", and an
all-suffix input yields the empty string. -/
theorem C7_suffixes :
    (∀ s : List Char, strip_suffixes s
        = joinSpace ((pySplit s).filter (fun t => decide (¬ t ∈ suffix_tokens)))) ∧
    normalize_str ("Vincent Price".toList) = "vincent price".toList ∧
    normalize_str ("John Smith III".toList) = "john smith".toList ∧
    normalize_str ("Jr. Sr.".toList) = [] :=
  ⟨fun _ => rfl, by decide, by decide, by decide⟩

/-- Claim C8: step 4 deletes periods, commas and apostrophes without
inserting anything and replaces every hyphen by a space, so
"O'Brien-Smith, Jr." normalizes to "obrien smith". -/
theorem C8_punct :
    (∀ s : List Char,
      pyReplaceChar '.' [] s = s.filter (fun c => decide (¬ c = '.')) ∧
      pyReplaceChar ',' [] s = s.filter (fun c => decide (¬ c = ',')) ∧
      pyReplaceChar '\'' [] s = s.filter (fun c => decide (¬ c = '\'')) ∧
      pyReplaceChar '-' [' '] s = s.map (fun c => if c = '-' then ' ' else c)) ∧
    normalize_str ("O'Brien-Smith, Jr.".toList) = "obrien smith".toList :=
  ⟨fun s => ⟨pyReplaceChar_nil_eq_filter '.' s, pyReplaceChar_nil_eq_filter ',' s,
    pyReplaceChar_nil_eq_filter '\'' s, pyReplaceChar_single_eq_map '-' ' ' s⟩, by decide⟩

/-- Claim C9: deleting line 94 (the replacement of backslash-space by a
space) while keeping line 95 (every backslash becomes a space) does not
change the output of `normalize_name_for_blocking` on any input. -/
theorem C9_step5_redundant (s : List Char) :
    normalize_str_no94 s = normalize_str s :=
  normalize_no94_agrees s

/-- Claim C10: the two `re.sub(r"\\s+", " ", text)` calls match a literal
backslash followed by letter-s characters, and since line 95 removed all
backslashes they return their input unchanged at both call sites; the
variant using plain `text.strip()` instead produces the same output on
every input. -/
theorem C10_resub_vacuous (s : List Char) :
    reSub102 (stage4 s) = stage4 s ∧
    reSub102 (stage6 s) = stage6 s ∧
    normalize_str_stripOnly s = normalize_str s :=
  ⟨reSub102_eq_self (not_bs_stage4 s), reSub102_eq_self (not_bs_stage6 s),
    normalize_stripOnly_agrees s⟩

end NameUtils
